import Mathlib

set_option maxHeartbeats 1000000
set_option maxRecDepth 4000

/-! Shallow embedding of the gh-tagger version engine (src/main.py).

The engine parses repository tag names into semantic versions
(python-semver's VersionInfo), selects a base version per release
channel (get_base_version_by_channel), counts prerelease ordinals
(get_last_prerelease_number) and produces the next version
(generate_new_version).  Strings are modelled as lists of characters;
machine integers as Nat/Int. -/

/-! ## Three-way comparators and their laws -/

/-- Three-way comparison of naturals, as python compares integers. -/
def cmpNat (a b : Nat) : Ordering :=
  if a < b then .lt else if b < a then .gt else .eq

/-- Laws of a comparator that make sorting reasoning possible:
swap symmetry, congruence across equal elements, transitivity of `lt`. -/
structure CmpLaws {α : Type} (c : α → α → Ordering) : Prop where
  symm : ∀ a b, c a b = (c b a).swap
  congrL : ∀ a b x, c a b = .eq → c a x = c b x
  ltTrans : ∀ a b x, c a b = .lt → c b x = .lt → c a x = .lt

theorem swap_gt_iff {o : Ordering} : o.swap = .gt ↔ o = .lt := by cases o <;> decide

theorem swap_lt_iff {o : Ordering} : o.swap = .lt ↔ o = .gt := by cases o <;> decide

theorem ordSwap_eq_eq {o : Ordering} : o.swap = .eq ↔ o = .eq := by cases o <;> decide

theorem then_eq_eq_iff {o p : Ordering} : o.then p = .eq ↔ o = .eq ∧ p = .eq := by
  cases o <;> cases p <;> decide

theorem then_eq_lt_iff {o p : Ordering} : o.then p = .lt ↔ o = .lt ∨ (o = .eq ∧ p = .lt) := by
  cases o <;> cases p <;> decide

theorem swap_then (o p : Ordering) : (o.then p).swap = o.swap.then p.swap := by
  cases o <;> cases p <;> decide

theorem CmpLaws.refl {α : Type} {c : α → α → Ordering} (h : CmpLaws c) (a : α) :
    c a a = .eq := by
  have hs := h.symm a a
  cases hv : c a a
  case lt => rw [hv] at hs; exact absurd hs (by decide)
  case eq => rfl
  case gt => rw [hv] at hs; exact absurd hs (by decide)

theorem CmpLaws.congrR {α : Type} {c : α → α → Ordering} (h : CmpLaws c) {a b : α} (x : α)
    (hab : c a b = .eq) : c x a = c x b := by
  rw [h.symm x a, h.symm x b, h.congrL a b x hab]

theorem CmpLaws.gtSymm {α : Type} {c : α → α → Ordering} (h : CmpLaws c) {a b : α}
    (hab : c a b = .gt) : c b a = .lt := by
  have hs := h.symm a b
  rw [hab] at hs
  exact swap_gt_iff.mp hs.symm

theorem CmpLaws.geTrans {α : Type} {c : α → α → Ordering} (h : CmpLaws c) {a b x : α}
    (h1 : c a b ≠ .lt) (h2 : c b x ≠ .lt) : c a x ≠ .lt := by
  intro hax
  cases hab : c a b with
  | lt => exact h1 hab
  | eq => exact h2 (by rw [← h.congrL a b x hab, hax])
  | gt =>
    cases hbx : c b x with
    | lt => exact h2 hbx
    | eq =>
      have hco := h.congrR a hbx
      rw [hab, hax] at hco
      exact absurd hco (by decide)
    | gt =>
      have hba : c b a = .lt := h.gtSymm hab
      have hxb : c x b = .lt := h.gtSymm hbx
      have hxa : c x a = .lt := h.ltTrans x b a hxb hba
      have hs := h.symm a x
      rw [hax, hxa] at hs
      exact absurd hs (by decide)

theorem cmpNat_eq_iff {a b : Nat} : cmpNat a b = .eq ↔ a = b := by
  unfold cmpNat
  by_cases h1 : a < b
  · simp only [if_pos h1]
    constructor
    · intro h; exact absurd h (by decide)
    · intro h; omega
  · by_cases h2 : b < a
    · simp only [if_neg h1, if_pos h2]
      constructor
      · intro h; exact absurd h (by decide)
      · intro h; omega
    · simp only [if_neg h1, if_neg h2]
      constructor
      · intro _; omega
      · intro _; trivial

theorem cmpNat_lt_iff {a b : Nat} : cmpNat a b = .lt ↔ a < b := by
  unfold cmpNat
  by_cases h1 : a < b
  · simp [if_pos h1, h1]
  · by_cases h2 : b < a
    · simp only [if_neg h1, if_pos h2]
      constructor
      · intro h; exact absurd h (by decide)
      · intro h; omega
    · simp only [if_neg h1, if_neg h2]
      constructor
      · intro h; exact absurd h (by decide)
      · intro h; omega

theorem cmpNat_symm (a b : Nat) : cmpNat a b = (cmpNat b a).swap := by
  unfold cmpNat
  by_cases h1 : a < b
  · rw [if_pos h1, if_neg (by omega), if_pos h1]
    rfl
  · by_cases h2 : b < a
    · rw [if_neg h1, if_pos h2, if_pos h2]
      rfl
    · rw [if_neg h1, if_neg h2, if_neg h2, if_neg h1]
      rfl

theorem cmpNat_laws : CmpLaws cmpNat := by
  refine ⟨cmpNat_symm, ?_, ?_⟩
  · intro a b x hab
    rw [cmpNat_eq_iff.mp hab]
  · intro a b x hab hbx
    rw [cmpNat_lt_iff] at hab hbx ⊢
    omega

theorem CmpLaws.onFun {α β : Type} {c : α → α → Ordering} (h : CmpLaws c) (f : β → α) :
    CmpLaws (fun x y => c (f x) (f y)) :=
  ⟨fun a b => h.symm (f a) (f b),
   fun a b x hab => h.congrL (f a) (f b) (f x) hab,
   fun a b x hab hbx => h.ltTrans (f a) (f b) (f x) hab hbx⟩

theorem CmpLaws.compose {α : Type} {c1 c2 : α → α → Ordering}
    (h1 : CmpLaws c1) (h2 : CmpLaws c2) :
    CmpLaws (fun a b => (c1 a b).then (c2 a b)) := by
  refine ⟨?_, ?_, ?_⟩
  · intro a b
    simp only [swap_then, ← h1.symm, ← h2.symm]
  · intro a b x hab
    simp only [then_eq_eq_iff] at hab
    simp only [h1.congrL a b x hab.1, h2.congrL a b x hab.2]
  · intro a b x hab hbx
    simp only [then_eq_lt_iff] at hab hbx ⊢
    rcases hab with hab | ⟨hab, hab2⟩
    · rcases hbx with hbx | ⟨hbx, _⟩
      · exact Or.inl (h1.ltTrans a b x hab hbx)
      · exact Or.inl (by rw [h1.congrR a hbx] at hab; exact hab)
    · rcases hbx with hbx | ⟨hbx, hbx2⟩
      · exact Or.inl (by rw [h1.congrL a b x hab]; exact hbx)
      · refine Or.inr ⟨by rw [h1.congrL a b x hab]; exact hbx, h2.ltTrans a b x hab2 hbx2⟩

/-! ## Lexicographic list comparator (python tuple and string comparison) -/

/-- Lexicographic extension of a comparator to lists; a strict prefix is smaller. -/
def cmpList {α : Type} (c : α → α → Ordering) : List α → List α → Ordering
  | [], [] => .eq
  | [], _ :: _ => .lt
  | _ :: _, [] => .gt
  | a :: as, b :: bs => (c a b).then (cmpList c as bs)

theorem cmpList_laws {α : Type} {c : α → α → Ordering} (hc : CmpLaws c) :
    CmpLaws (cmpList c) := by
  refine ⟨?_, ?_, ?_⟩
  · intro a
    induction a with
    | nil => intro b; cases b <;> rfl
    | cons x xs ih =>
      intro b
      cases b with
      | nil => rfl
      | cons y ys =>
        show (c x y).then (cmpList c xs ys) = ((c y x).then (cmpList c ys xs)).swap
        rw [swap_then, ← hc.symm, ← ih ys]
  · intro a
    induction a with
    | nil =>
      intro b x hab
      cases b with
      | nil => rfl
      | cons y ys => exact absurd hab (by simp [cmpList])
    | cons z zs ih =>
      intro b x hab
      cases b with
      | nil => exact absurd hab (by simp [cmpList])
      | cons y ys =>
        have hab' := hab
        rw [show cmpList c (z :: zs) (y :: ys) = (c z y).then (cmpList c zs ys) from rfl,
          then_eq_eq_iff] at hab'
        cases x with
        | nil => rfl
        | cons w ws =>
          show (c z w).then (cmpList c zs ws) = (c y w).then (cmpList c ys ws)
          rw [hc.congrL z y w hab'.1, ih ys ws hab'.2]
  · intro a
    induction a with
    | nil =>
      intro b x hab hbx
      cases b with
      | nil => exact absurd hab (by simp [cmpList])
      | cons y ys =>
        cases x with
        | nil => exact absurd hbx (by simp [cmpList])
        | cons w ws => rfl
    | cons z zs ih =>
      intro b x hab hbx
      cases b with
      | nil => exact absurd hab (by simp [cmpList])
      | cons y ys =>
        cases x with
        | nil => exact absurd hbx (by simp [cmpList])
        | cons w ws =>
          rw [show cmpList c (z :: zs) (y :: ys) = (c z y).then (cmpList c zs ys) from rfl,
            then_eq_lt_iff] at hab
          rw [show cmpList c (y :: ys) (w :: ws) = (c y w).then (cmpList c ys ws) from rfl,
            then_eq_lt_iff] at hbx
          show ((c z w).then (cmpList c zs ws)) = .lt
          rw [then_eq_lt_iff]
          rcases hab with hab | ⟨hab, hab2⟩
          · rcases hbx with hbx | ⟨hbx, _⟩
            · exact Or.inl (hc.ltTrans z y w hab hbx)
            · exact Or.inl (by rw [hc.congrR z hbx] at hab; exact hab)
          · rcases hbx with hbx | ⟨hbx, hbx2⟩
            · exact Or.inl (by rw [hc.congrL z y w hab]; exact hbx)
            · exact Or.inr ⟨by rw [hc.congrL z y w hab]; exact hbx, ih ys ws hab2 hbx2⟩

/-! ## Semantic versions (python-semver VersionInfo) -/

/-- Structured semantic version, as python-semver's VersionInfo: numeric core,
optional prerelease string and optional build string (kept as char lists). -/
structure VersionInfo where
  major : Nat
  minor : Nat
  patch : Nat
  prerelease : Option (List Char)
  build : Option (List Char)
deriving DecidableEq

/-- Split a char list at every occurrence of `c`, like python str.split. -/
def splitOnChar (c : Char) : List Char → List (List Char)
  | [] => [[]]
  | x :: xs =>
    if x = c then [] :: splitOnChar c xs
    else
      match splitOnChar c xs with
      | [] => [[x]]
      | g :: gs => (x :: g) :: gs

/-- Split a char list at the first occurrence of `c`; the second component is
none when `c` does not occur (python str.split with maxsplit=1, or the way the
semver grammar cuts core / prerelease / build). -/
def splitFirst (c : Char) : List Char → List Char × Option (List Char)
  | [] => ([], none)
  | x :: xs =>
    if x = c then ([], some xs)
    else
      let r := splitFirst c xs
      (x :: r.1, r.2)

/-- Characters allowed in semver prerelease and build identifiers. -/
def identChar (c : Char) : Bool := c.isAlpha || c.isDigit || c = '-'

/-- Numeric value of a digit string. -/
def natOfDigits (s : List Char) : Nat :=
  s.foldl (fun acc c => 10 * acc + (c.toNat - 48)) 0

/-- A numeric core component: digits only, no leading zero. -/
def parseNumCore (s : List Char) : Option Nat :=
  if !s.isEmpty && s.all (·.isDigit) && (s = ['0'] || s.head? ≠ some '0') then
    some (natOfDigits s)
  else none

/-- A valid prerelease identifier per the semver grammar: nonempty, made of
alphanumerics and hyphens, and with no leading zero when purely numeric. -/
def validPreIdent (s : List Char) : Bool :=
  !s.isEmpty && s.all identChar &&
    (if s.all (·.isDigit) then s = ['0'] || s.head? ≠ some '0' else true)

/-- A valid build identifier: nonempty alphanumerics and hyphens. -/
def validBuildIdent (s : List Char) : Bool :=
  !s.isEmpty && s.all identChar

/-- semver.VersionInfo.parse on a char list: MAJOR.MINOR.PATCH with optional
-PRERELEASE (after the first '-') and +BUILD (after the first '+'); none on any
grammar violation (the python code catches this ValueError and filters the tag).
semver.VersionInfo.isvalid holds exactly when this returns some. -/
def parseVersionChars (s : List Char) : Option VersionInfo :=
  let bp := splitFirst '+' s
  let cp := splitFirst '-' bp.1
  match splitOnChar '.' cp.1 with
  | [a, b, c] =>
    match parseNumCore a, parseNumCore b, parseNumCore c with
    | some M, some m, some p =>
      let preOk := match cp.2 with
        | none => true
        | some pr => (splitOnChar '.' pr).all validPreIdent
      let buildOk := match bp.2 with
        | none => true
        | some bd => (splitOnChar '.' bd).all validBuildIdent
      if preOk && buildOk then some ⟨M, m, p, cp.2, bp.2⟩ else none
    | _, _, _ => none
  | _ => none

/-- Comparator on characters by code point, as python string comparison. -/
def cmpChar (a b : Char) : Ordering := cmpNat a.toNat b.toNat

/-- A nonempty all-digit identifier, converted to int by python-semver before
comparing. -/
def isNumIdent (s : List Char) : Bool := !s.isEmpty && s.all (·.isDigit)

/-- python-semver identifier comparison: numeric identifiers compare as
integers and sort before alphanumeric ones; alphanumeric ones compare as
strings. -/
def cmpIdent (a b : List Char) : Ordering :=
  if isNumIdent a then
    if isNumIdent b then cmpNat (natOfDigits a) (natOfDigits b) else .lt
  else if isNumIdent b then .gt
  else cmpList cmpChar a b

/-- Prerelease comparison: a stable version (no prerelease) sorts above any
prerelease; two prerelease strings compare identifier-by-identifier after
splitting on dots. -/
def cmpPre : Option (List Char) → Option (List Char) → Ordering
  | none, none => .eq
  | none, some _ => .gt
  | some _, none => .lt
  | some a, some b => cmpList cmpIdent (splitOnChar '.' a) (splitOnChar '.' b)

/-- semver precedence: compare the numeric triple lexicographically, then the
prerelease fields; build metadata is ignored. -/
def cmpVersion (a b : VersionInfo) : Ordering :=
  (cmpNat a.major b.major).then
    ((cmpNat a.minor b.minor).then
      ((cmpNat a.patch b.patch).then (cmpPre a.prerelease b.prerelease)))

theorem cmpIdent_laws : CmpLaws cmpIdent := by
  have hchars : CmpLaws (cmpList cmpChar) := cmpList_laws (cmpNat_laws.onFun Char.toNat)
  refine ⟨?_, ?_, ?_⟩
  · intro a b
    unfold cmpIdent
    by_cases ha : isNumIdent a = true <;> by_cases hb : isNumIdent b = true <;>
      (try simp [ha, hb]) <;>
      first
        | rfl
        | exact cmpNat_symm _ _
        | exact hchars.symm a b
  · intro a b x hab
    unfold cmpIdent at hab ⊢
    by_cases ha : isNumIdent a = true <;> by_cases hb : isNumIdent b = true <;>
      by_cases hx : isNumIdent x = true <;>
      (try simp [ha, hb, hx] at hab ⊢) <;>
      first
        | rfl
        | exact absurd hab (by decide)
        | rw [cmpNat_eq_iff.mp hab]
        | exact hchars.congrL a b x hab
  · intro a b x hab hbx
    unfold cmpIdent at hab hbx ⊢
    by_cases ha : isNumIdent a = true <;> by_cases hb : isNumIdent b = true <;>
      by_cases hx : isNumIdent x = true <;>
      (try simp [ha, hb, hx] at hab hbx ⊢) <;>
      first
        | rfl
        | exact absurd hab (by decide)
        | exact absurd hbx (by decide)
        | exact cmpNat_laws.ltTrans _ _ _ hab hbx
        | exact hchars.ltTrans a b x hab hbx

theorem cmpPre_laws : CmpLaws cmpPre := by
  have hidl : CmpLaws (cmpList cmpIdent) := cmpList_laws cmpIdent_laws
  refine ⟨?_, ?_, ?_⟩
  · intro a b
    cases a <;> cases b <;>
      first
        | rfl
        | exact hidl.symm _ _
  · intro a b x hab
    cases a <;> cases b <;> cases x <;>
      (try simp only [cmpPre] at hab ⊢) <;>
      first
        | rfl
        | exact absurd hab (by decide)
        | exact hidl.congrL _ _ _ hab
  · intro a b x hab hbx
    cases a <;> cases b <;> cases x <;>
      (try simp only [cmpPre] at hab hbx ⊢) <;>
      first
        | rfl
        | exact absurd hab (by decide)
        | exact absurd hbx (by decide)
        | exact hidl.ltTrans _ _ _ hab hbx

theorem cmpVersion_laws : CmpLaws cmpVersion :=
  CmpLaws.compose (cmpNat_laws.onFun VersionInfo.major)
    (CmpLaws.compose (cmpNat_laws.onFun VersionInfo.minor)
      (CmpLaws.compose (cmpNat_laws.onFun VersionInfo.patch)
        (cmpPre_laws.onFun VersionInfo.prerelease)))

/-! ## The engine of src/main.py -/

/-- python str.startswith on char lists. -/
def startsWithChars : List Char → List Char → Bool
  | [], _ => true
  | _ :: _, [] => false
  | a :: as, b :: bs => if a = b then startsWithChars as bs else false

/-- python truthiness of an optional string (None and "" are falsy), as used in
`if not ver.prerelease` and `if ver.prerelease and ...`. -/
def pyTruthy (p : Option (List Char)) : Bool := !(p.getD []).isEmpty

/-- `ver.prerelease and ver.prerelease.startswith(pre)` for a VersionInfo. -/
def acceptsPre (pre : List Char) (v : VersionInfo) : Bool :=
  pyTruthy v.prerelease &&
    (match v.prerelease with
     | none => false
     | some s => startsWithChars pre s)

/-- The per-channel condition of the match statement in
get_base_version_by_channel.  An unrecognized channel matches no case, so the
loop never returns for it. -/
def channelAccepts (channel : String) (v : VersionInfo) : Bool :=
  if channel = "beta" then !pyTruthy v.prerelease
  else if channel = "release-candidate" then acceptsPre ['b', 'e', 't', 'a'] v
  else if channel = "release" then acceptsPre ['r', 'c'] v
  else false

/-- Tag name starts with 'v' (the filter in the tag-list comprehension). -/
def headIsV (t : List Char) : Bool := startsWithChars ['v'] t

/-- The sort key of the tag list: the parsed version of the name without its
first character, or 0.0.0 when it does not parse. -/
def tagKey (t : List Char) : VersionInfo :=
  match parseVersionChars (t.drop 1) with
  | some v => v
  | none => ⟨0, 0, 0, none, none⟩

/-- Insert a tag into a list sorted descending by version key (python
sorted(..., key=..., reverse=True) is a sort by that key, descending). -/
def insertTagDesc (x : List Char) : List (List Char) → List (List Char)
  | [] => [x]
  | y :: ys =>
    if cmpVersion (tagKey x) (tagKey y) = .gt then x :: y :: ys
    else y :: insertTagDesc x ys

/-- Sort the tag names descending by version key. -/
def sortTagsDesc : List (List Char) → List (List Char)
  | [] => []
  | x :: xs => insertTagDesc x (sortTagsDesc xs)

/-- The scan loop of get_base_version_by_channel: walk the sorted tags, parse
each name without its first character (a parse failure is caught and skipped),
and return the first version the channel's case accepts. -/
def firstBase (channel : String) : List (List Char) → Option VersionInfo
  | [] => none
  | t :: ts =>
    match parseVersionChars (t.drop 1) with
    | some ver => if channelAccepts channel ver then some ver else firstBase channel ts
    | none => firstBase channel ts

/-- The fallback initial version 0.1.0 returned when the loop finds nothing. -/
def sentinelVersion : VersionInfo := ⟨0, 1, 0, none, none⟩

/-- get_base_version_by_channel: keep the tags starting with 'v', sort them
descending by parsed version (unparseable names key as 0.0.0), scan for the
first version accepted by the channel, and fall back to 0.1.0. -/
def get_base_version_by_channel (tags : List String) (channel : String) : VersionInfo :=
  match firstBase channel (sortTagsDesc ((tags.map String.data).filter headIsV)) with
  | some v => v
  | none => sentinelVersion

/-- `'rc' if channel == 'release-candidate' else channel`. -/
def channelPrefixOf (channel : String) : List Char :=
  if channel = "release-candidate" then ['r', 'c'] else channel.data

/-- python int() on the strings reachable here (semver identifiers): an
optional sign followed by digits; anything else raises ValueError (none). -/
def pyIntOfChars : List Char → Option Int
  | '-' :: rest =>
    if !rest.isEmpty && rest.all (·.isDigit) then some (-(natOfDigits rest : Int)) else none
  | '+' :: rest =>
    if !rest.isEmpty && rest.all (·.isDigit) then some ((natOfDigits rest : Int)) else none
  | s =>
    if !s.isEmpty && s.all (·.isDigit) then some ((natOfDigits s : Int)) else none

/-- The number one iteration of get_last_prerelease_number extracts from a tag:
the tag must start with "v{base_version}-{channel_prefix}.", its name without
the 'v' must parse, the prerelease must be truthy, and the second dot-separated
component of the prerelease must parse as an int; any failure skips the tag. -/
def ordContribution (baseVersion : List Char) (channel : String) (t : List Char) : Option Int :=
  if startsWithChars ('v' :: baseVersion ++ '-' :: channelPrefixOf channel ++ ['.']) t then
    match parseVersionChars (t.drop 1) with
    | some ver =>
      match ver.prerelease with
      | some pr =>
        if !pr.isEmpty then
          match (splitOnChar '.' pr).drop 1 with
          | x :: _ => pyIntOfChars x
          | [] => none
        else none
      | none => none
    | none => none
  else none

/-- get_last_prerelease_number: the maximum extracted ordinal over all tags,
starting from 0. -/
def get_last_prerelease_number (tags : List String) (baseVersion : List Char)
    (channel : String) : Int :=
  (tags.map String.data).foldl
    (fun acc t =>
      match ordContribution baseVersion channel t with
      | some n => max acc n
      | none => acc) 0

/-- The bump level of the request; argparse restricts --bump to these three. -/
inductive Bump
  | major
  | minor
  | patch
deriving DecidableEq

/-- python-semver bump_major / bump_minor / bump_patch: raise one component,
reset the lower ones, drop prerelease and build. -/
def bumpVersion : Bump → VersionInfo → VersionInfo
  | .major, v => ⟨v.major + 1, 0, 0, none, none⟩
  | .minor, v => ⟨v.major, v.minor + 1, 0, none, none⟩
  | .patch, v => ⟨v.major, v.minor, v.patch + 1, none, none⟩

/-- Decimal digits of a natural number. -/
def natDigits (n : Nat) : List Char := Nat.toDigits 10 n

/-- python str() of an int. -/
def intToChars (i : Int) : List Char :=
  if i < 0 then '-' :: natDigits i.natAbs else natDigits i.toNat

/-- python str() of a VersionInfo: major.minor.patch, then -prerelease and
+build when present. -/
def strVersion (v : VersionInfo) : List Char :=
  natDigits v.major ++ '.' :: natDigits v.minor ++ '.' :: natDigits v.patch
    ++ (match v.prerelease with
        | some p => '-' :: p
        | none => [])
    ++ (match v.build with
        | some b => '+' :: b
        | none => [])

/-- generate_new_version: resolve the base for the channel, apply the bump,
and for a non-release channel attach "{channel_suffix}.{last_num + 1}" where
last_num comes from get_last_prerelease_number at the bumped core
(str(bumped_version).split('-')[0]). -/
def generate_new_version (tags : List String) (channel : String) (bump : Bump) : VersionInfo :=
  let base_version := get_base_version_by_channel tags channel
  let bumped_version := bumpVersion bump base_version
  if channel ≠ "release" then
    let channel_suffix := channelPrefixOf channel
    let core_version := (splitFirst '-' (strVersion bumped_version)).1
    let last_num := get_last_prerelease_number tags core_version channel
    { bumped_version with prerelease := some (channel_suffix ++ '.' :: intToChars (last_num + 1)) }
  else bumped_version

/-- The argparse choices for --channel in parse_args; an invocation with any
other channel string is rejected by the CLI parser before the engine runs. -/
def channelChoices : List String := ["beta", "release-candidate", "release"]

/-- Whether parse_args accepts a channel value. -/
def argparseAcceptsChannel (c : String) : Bool := channelChoices.contains c

/-! ## Helper lemmas about the engine -/

theorem cmpVersion_lt_of_core_lt (v w : VersionInfo)
    (h : v.major < w.major ∨ (v.major = w.major ∧
      (v.minor < w.minor ∨ (v.minor = w.minor ∧ v.patch < w.patch)))) :
    cmpVersion v w = .lt := by
  unfold cmpVersion
  rcases h with h | ⟨h1, h | ⟨h2, h3⟩⟩
  · rw [then_eq_lt_iff]
    exact Or.inl (cmpNat_lt_iff.mpr h)
  · rw [then_eq_lt_iff]
    refine Or.inr ⟨cmpNat_eq_iff.mpr h1, ?_⟩
    rw [then_eq_lt_iff]
    exact Or.inl (cmpNat_lt_iff.mpr h)
  · rw [then_eq_lt_iff]
    refine Or.inr ⟨cmpNat_eq_iff.mpr h1, ?_⟩
    rw [then_eq_lt_iff]
    refine Or.inr ⟨cmpNat_eq_iff.mpr h2, ?_⟩
    rw [then_eq_lt_iff]
    exact Or.inl (cmpNat_lt_iff.mpr h3)

/-- The descending-by-key order used for the tag sort, as a relation. -/
def tagGe (a b : List Char) : Prop := cmpVersion (tagKey a) (tagKey b) ≠ .lt

theorem mem_insertTagDesc {x a : List Char} {l : List (List Char)} :
    a ∈ insertTagDesc x l ↔ a = x ∨ a ∈ l := by
  induction l with
  | nil => simp [insertTagDesc]
  | cons y ys ih =>
    unfold insertTagDesc
    split
    · rw [List.mem_cons]
    · rw [List.mem_cons, ih, List.mem_cons]
      tauto

theorem mem_sortTagsDesc {a : List Char} {l : List (List Char)} :
    a ∈ sortTagsDesc l ↔ a ∈ l := by
  induction l with
  | nil => simp [sortTagsDesc]
  | cons x xs ih =>
    unfold sortTagsDesc
    rw [mem_insertTagDesc, ih, List.mem_cons]

theorem pairwise_insertTagDesc {x : List Char} {l : List (List Char)}
    (h : List.Pairwise tagGe l) : List.Pairwise tagGe (insertTagDesc x l) := by
  induction l with
  | nil => simp [insertTagDesc]
  | cons y ys ih =>
    rw [List.pairwise_cons] at h
    unfold insertTagDesc
    split
    case isTrue hgt =>
      rw [List.pairwise_cons]
      refine ⟨?_, List.pairwise_cons.mpr ⟨h.1, h.2⟩⟩
      intro b hb
      rcases List.mem_cons.mp hb with rfl | hb
      · show cmpVersion (tagKey x) (tagKey b) ≠ .lt
        rw [hgt]
        decide
      · have h1 : tagGe x y := by
          show cmpVersion (tagKey x) (tagKey y) ≠ .lt
          rw [hgt]
          decide
        exact cmpVersion_laws.geTrans h1 (h.1 b hb)
    case isFalse hng =>
      rw [List.pairwise_cons]
      refine ⟨?_, ih h.2⟩
      intro b hb
      rcases mem_insertTagDesc.mp hb with rfl | hb
      · show cmpVersion (tagKey y) (tagKey b) ≠ .lt
        intro hlt
        rw [cmpVersion_laws.symm] at hlt
        exact hng (swap_lt_iff.mp hlt)
      · exact h.1 b hb

theorem pairwise_sortTagsDesc (l : List (List Char)) :
    List.Pairwise tagGe (sortTagsDesc l) := by
  induction l with
  | nil => simp [sortTagsDesc]
  | cons x xs ih => exact pairwise_insertTagDesc ih

theorem firstBase_eq_none {ch : String} {l : List (List Char)}
    (h : ∀ t ∈ l, ∀ v, parseVersionChars (t.drop 1) = some v → channelAccepts ch v = false) :
    firstBase ch l = none := by
  induction l with
  | nil => rfl
  | cons t ts ih =>
    unfold firstBase
    cases hp : parseVersionChars (t.drop 1) with
    | none => exact ih fun t' ht' => h t' (List.mem_cons_of_mem _ ht')
    | some v =>
      have hf := h t (List.mem_cons_self t ts) v hp
      simp only [hf, Bool.false_eq_true, if_false]
      exact ih fun t' ht' => h t' (List.mem_cons_of_mem _ ht')

theorem firstBase_cons_some {ch : String} {t : List Char} {ts : List (List Char)}
    {v : VersionInfo} (hp : parseVersionChars (t.drop 1) = some v) :
    firstBase ch (t :: ts) =
      if channelAccepts ch v = true then some v else firstBase ch ts := by
  conv_lhs => unfold firstBase
  simp only [hp]

theorem firstBase_cons_none {ch : String} {t : List Char} {ts : List (List Char)}
    (hp : parseVersionChars (t.drop 1) = none) :
    firstBase ch (t :: ts) = firstBase ch ts := by
  conv_lhs => unfold firstBase
  simp only [hp]

theorem firstBase_mem {ch : String} {l : List (List Char)} {r : VersionInfo}
    (h : firstBase ch l = some r) :
    ∃ t ∈ l, parseVersionChars (t.drop 1) = some r ∧ channelAccepts ch r = true := by
  induction l with
  | nil => cases h
  | cons t ts ih =>
    cases hp : parseVersionChars (t.drop 1) with
    | none =>
      rw [firstBase_cons_none hp] at h
      obtain ⟨t', ht', h1, h2⟩ := ih h
      exact ⟨t', List.mem_cons_of_mem _ ht', h1, h2⟩
    | some v =>
      rw [firstBase_cons_some hp] at h
      by_cases ha : channelAccepts ch v = true
      · rw [if_pos ha] at h
        injection h with h
        subst h
        exact ⟨t, List.mem_cons_self t ts, hp, ha⟩
      · rw [if_neg ha] at h
        obtain ⟨t', ht', h1, h2⟩ := ih h
        exact ⟨t', List.mem_cons_of_mem _ ht', h1, h2⟩

theorem firstBase_ge {ch : String} {l : List (List Char)} {r : VersionInfo}
    (hpw : List.Pairwise tagGe l) (h : firstBase ch l = some r) :
    ∀ t ∈ l, ∀ v, parseVersionChars (t.drop 1) = some v → channelAccepts ch v = true →
      cmpVersion r v ≠ .lt := by
  induction l with
  | nil => intro t ht; cases ht
  | cons t0 ts ih =>
    rw [List.pairwise_cons] at hpw
    cases hp0 : parseVersionChars (t0.drop 1) with
    | none =>
      rw [firstBase_cons_none hp0] at h
      intro t ht v hv ha
      rcases List.mem_cons.mp ht with rfl | ht
      · rw [hp0] at hv
        cases hv
      · exact ih hpw.2 h t ht v hv ha
    | some v0 =>
      rw [firstBase_cons_some hp0] at h
      by_cases ha0 : channelAccepts ch v0 = true
      · rw [if_pos ha0] at h
        injection h with h
        subst h
        intro t ht v hv ha
        rcases List.mem_cons.mp ht with rfl | ht
        · rw [hp0] at hv
          injection hv with hv
          subst hv
          intro hlt
          rw [cmpVersion_laws.refl] at hlt
          cases hlt
        · have hge := hpw.1 t ht
          unfold tagGe at hge
          have e0 : tagKey t0 = v0 := by unfold tagKey; simp only [hp0]
          have e1 : tagKey t = v := by unfold tagKey; simp only [hv]
          rw [e0, e1] at hge
          exact hge
      · rw [if_neg ha0] at h
        intro t ht v hv ha
        rcases List.mem_cons.mp ht with rfl | ht
        · rw [hp0] at hv
          injection hv with hv
          subst hv
          exact absurd ha ha0
        · exact ih hpw.2 h t ht v hv ha

theorem firstBase_isSome {ch : String} {l : List (List Char)}
    (h : ∃ t ∈ l, ∃ v, parseVersionChars (t.drop 1) = some v ∧ channelAccepts ch v = true) :
    ∃ r, firstBase ch l = some r := by
  induction l with
  | nil =>
    obtain ⟨t, ht, _⟩ := h
    cases ht
  | cons t0 ts ih =>
    cases hp0 : parseVersionChars (t0.drop 1) with
    | none =>
      rw [firstBase_cons_none hp0]
      apply ih
      obtain ⟨t, ht, v, hv, ha⟩ := h
      rcases List.mem_cons.mp ht with rfl | ht
      · rw [hp0] at hv
        cases hv
      · exact ⟨t, ht, v, hv, ha⟩
    | some v0 =>
      rw [firstBase_cons_some hp0]
      by_cases ha0 : channelAccepts ch v0 = true
      · rw [if_pos ha0]
        exact ⟨v0, rfl⟩
      · rw [if_neg ha0]
        apply ih
        obtain ⟨t, ht, v, hv, ha⟩ := h
        rcases List.mem_cons.mp ht with rfl | ht
        · rw [hp0] at hv
          injection hv with hv
          subst hv
          exact absurd ha ha0
        · exact ⟨t, ht, v, hv, ha⟩

theorem firstBase_insertTagDesc_of_none {ch : String} {x : List Char} {l : List (List Char)}
    (hx : parseVersionChars (x.drop 1) = none) :
    firstBase ch (insertTagDesc x l) = firstBase ch l := by
  induction l with
  | nil =>
    show firstBase ch [x] = firstBase ch []
    rw [firstBase_cons_none hx]
  | cons y ys ih =>
    unfold insertTagDesc
    split
    · show firstBase ch (x :: y :: ys) = firstBase ch (y :: ys)
      rw [firstBase_cons_none hx]
    · show firstBase ch (y :: insertTagDesc x ys) = firstBase ch (y :: ys)
      cases hpy : parseVersionChars (y.drop 1) with
      | none => rw [firstBase_cons_none hpy, firstBase_cons_none hpy, ih]
      | some v => rw [firstBase_cons_some hpy, firstBase_cons_some hpy, ih]

/-- The fold step of get_last_prerelease_number. -/
def ordStep (baseVersion : List Char) (channel : String) (acc : Int) (t : List Char) : Int :=
  match ordContribution baseVersion channel t with
  | some n => max acc n
  | none => acc

theorem get_last_eq_foldl (tags : List String) (baseVersion : List Char) (channel : String) :
    get_last_prerelease_number tags baseVersion channel =
      (tags.map String.data).foldl (ordStep baseVersion channel) 0 := rfl

theorem foldl_ordStep_ge_acc (baseVersion : List Char) (channel : String)
    (l : List (List Char)) (acc : Int) :
    acc ≤ l.foldl (ordStep baseVersion channel) acc := by
  induction l generalizing acc with
  | nil => exact le_refl acc
  | cons x xs ih =>
    rw [List.foldl_cons]
    refine le_trans ?_ (ih (ordStep baseVersion channel acc x))
    unfold ordStep
    cases ordContribution baseVersion channel x
    · exact le_refl acc
    · exact le_max_left _ _

theorem foldl_ordStep_le (baseVersion : List Char) (channel : String)
    (l : List (List Char)) (N acc : Int) (hacc : acc ≤ N)
    (h : ∀ t ∈ l, ∀ k, ordContribution baseVersion channel t = some k → k ≤ N) :
    l.foldl (ordStep baseVersion channel) acc ≤ N := by
  induction l generalizing acc with
  | nil => exact hacc
  | cons x xs ih =>
    rw [List.foldl_cons]
    apply ih
    · unfold ordStep
      cases hx : ordContribution baseVersion channel x with
      | none => exact hacc
      | some n => exact max_le hacc (h x (List.mem_cons_self x xs) n hx)
    · intro t ht k hk
      exact h t (List.mem_cons_of_mem _ ht) k hk

theorem foldl_ordStep_ge (baseVersion : List Char) (channel : String)
    {l : List (List Char)} {t : List Char} {k : Int} (ht : t ∈ l)
    (hk : ordContribution baseVersion channel t = some k) (acc : Int) :
    k ≤ l.foldl (ordStep baseVersion channel) acc := by
  induction l generalizing acc with
  | nil => cases ht
  | cons x xs ih =>
    rw [List.foldl_cons]
    rcases List.mem_cons.mp ht with rfl | ht'
    · refine le_trans ?_ (foldl_ordStep_ge_acc _ _ xs _)
      unfold ordStep
      rw [hk]
      exact le_max_right _ _
    · exact ih ht' _

theorem foldl_ordStep_all_none (baseVersion : List Char) (channel : String)
    {l : List (List Char)} (h : ∀ t ∈ l, ordContribution baseVersion channel t = none)
    (acc : Int) : l.foldl (ordStep baseVersion channel) acc = acc := by
  induction l generalizing acc with
  | nil => rfl
  | cons x xs ih =>
    rw [List.foldl_cons]
    have hx : ordStep baseVersion channel acc x = acc := by
      unfold ordStep
      rw [h x (List.mem_cons_self x xs)]
    rw [hx]
    exact ih (fun t ht => h t (List.mem_cons_of_mem _ ht)) acc

/-- The maximum-ordinal query evaluates to N when some tag contributes N and
every contribution is at most N (with N nonnegative). -/
theorem get_last_eq_max (tags : List String) (baseVersion : List Char) (channel : String)
    (N : Int) (hN : 0 ≤ N)
    (hex : ∃ t ∈ tags, ordContribution baseVersion channel t.data = some N)
    (hle : ∀ t ∈ tags, ∀ k, ordContribution baseVersion channel t.data = some k → k ≤ N) :
    get_last_prerelease_number tags baseVersion channel = N := by
  rw [get_last_eq_foldl]
  apply le_antisymm
  · apply foldl_ordStep_le _ _ _ _ _ hN
    intro t ht k hk
    obtain ⟨s, hs, rfl⟩ := List.mem_map.mp ht
    exact hle s hs k hk
  · obtain ⟨t, ht, hk⟩ := hex
    exact foldl_ordStep_ge _ _ (List.mem_map_of_mem _ ht) hk 0

/-- The maximum-ordinal query yields 0 when no tag contributes. -/
theorem get_last_eq_zero (tags : List String) (baseVersion : List Char) (channel : String)
    (h : ∀ t ∈ tags, ordContribution baseVersion channel t.data = none) :
    get_last_prerelease_number tags baseVersion channel = 0 := by
  rw [get_last_eq_foldl]
  apply foldl_ordStep_all_none
  intro t ht
  obtain ⟨s, hs, rfl⟩ := List.mem_map.mp ht
  exact h s hs

/-- Dropping a non-contributing tag (anywhere in the list) does not change the
maximum-ordinal query. -/
theorem get_last_drop_none (tags1 tags2 : List String) (t : String) (baseVersion : List Char)
    (channel : String) (h : ordContribution baseVersion channel t.data = none) :
    get_last_prerelease_number (tags1 ++ t :: tags2) baseVersion channel =
      get_last_prerelease_number (tags1 ++ tags2) baseVersion channel := by
  rw [get_last_eq_foldl, get_last_eq_foldl, List.map_append, List.map_append,
    List.foldl_append, List.foldl_append, List.map_cons, List.foldl_cons]
  have hstep : ∀ acc, ordStep baseVersion channel acc t.data = acc := by
    intro acc
    unfold ordStep
    rw [h]
  rw [hstep]

/-- Bumped version of the request: the base resolved for the channel, bumped. -/
def bumpedOf (tags : List String) (channel : String) (b : Bump) : VersionInfo :=
  bumpVersion b (get_base_version_by_channel tags channel)

/-- The core string str(bumped_version).split('-')[0] used for the ordinal scan. -/
def coreOf (tags : List String) (channel : String) (b : Bump) : List Char :=
  (splitFirst '-' (strVersion (bumpedOf tags channel b))).1

theorem generate_eq_release (tags : List String) (b : Bump) :
    generate_new_version tags "release" b = bumpedOf tags "release" b := rfl

theorem generate_eq_pre (tags : List String) (channel : String) (b : Bump)
    (h : channel ≠ "release") :
    generate_new_version tags channel b =
      { bumpedOf tags channel b with
        prerelease := some (channelPrefixOf channel ++ '.' ::
          intToChars (get_last_prerelease_number tags (coreOf tags channel b) channel + 1)) } := by
  simp only [generate_new_version]
  rw [if_pos h]
  rfl

theorem startsWith_cons_head {a : Char} {pre t : List Char}
    (h : startsWithChars (a :: pre) t = true) : t.head? = some a := by
  cases t with
  | nil => cases h
  | cons b bs =>
    unfold startsWithChars at h
    by_cases hab : a = b
    · rw [hab]
      rfl
    · rw [if_neg hab] at h
      cases h

theorem headIsV_iff {t : List Char} : headIsV t = true ↔ t.head? = some 'v' := by
  constructor
  · exact fun h => startsWith_cons_head h
  · intro h
    cases t with
    | nil => cases h
    | cons b bs =>
      injection h with h
      unfold headIsV startsWithChars
      rw [if_pos h.symm]
      rfl

/-- The resolver returns the sentinel when no v-tag parses to a version the
channel accepts. -/
theorem get_base_sentinel_of_reject (tags : List String) (ch : String)
    (h : ∀ t ∈ tags, headIsV t.data = true → ∀ v,
      parseVersionChars (t.data.drop 1) = some v → channelAccepts ch v = false) :
    get_base_version_by_channel tags ch = sentinelVersion := by
  unfold get_base_version_by_channel
  have hn : firstBase ch (sortTagsDesc ((tags.map String.data).filter headIsV)) = none := by
    apply firstBase_eq_none
    intro t ht v hv
    rw [mem_sortTagsDesc] at ht
    have hf := List.mem_filter.mp ht
    obtain ⟨s, hs, rfl⟩ := List.mem_map.mp hf.1
    exact h s hs hf.2 v hv
  simp only [hn]

theorem get_base_cons_not_v (t : String) (tags : List String) (channel : String)
    (h : headIsV t.data = false) :
    get_base_version_by_channel (t :: tags) channel =
      get_base_version_by_channel tags channel := by
  unfold get_base_version_by_channel
  rw [List.map_cons, List.filter_cons, h]
  simp only [Bool.false_eq_true, if_false]

theorem get_base_cons_invalid (t : String) (tags : List String) (channel : String)
    (hv : headIsV t.data = true) (hp : parseVersionChars (t.data.drop 1) = none) :
    get_base_version_by_channel (t :: tags) channel =
      get_base_version_by_channel tags channel := by
  unfold get_base_version_by_channel
  rw [List.map_cons, List.filter_cons, hv]
  simp only [if_true]
  rw [show sortTagsDesc (t.data :: (tags.map String.data).filter headIsV) =
    insertTagDesc t.data (sortTagsDesc ((tags.map String.data).filter headIsV)) from rfl]
  rw [firstBase_insertTagDesc_of_none hp]

theorem ordContribution_of_prefix_false {base : List Char} {ch : String} {t : List Char}
    (h : startsWithChars ('v' :: base ++ '-' :: channelPrefixOf ch ++ ['.']) t = false) :
    ordContribution base ch t = none := by
  unfold ordContribution
  rw [h]
  simp only [Bool.false_eq_true, if_false]

theorem ordContribution_of_parse_none {base : List Char} {ch : String} {t : List Char}
    (hp : parseVersionChars (t.drop 1) = none) :
    ordContribution base ch t = none := by
  unfold ordContribution
  split
  · simp only [hp]
  · rfl

theorem ordContribution_not_v {base : List Char} {ch : String} {t : List Char}
    (h : t.head? ≠ some 'v') : ordContribution base ch t = none := by
  apply ordContribution_of_prefix_false
  cases hs : startsWithChars ('v' :: base ++ '-' :: channelPrefixOf ch ++ ['.']) t
  · rfl
  · exact absurd (startsWith_cons_head hs) h

theorem generate_cong (t : String) (tags : List String) (channel : String) (b : Bump)
    (hbase : get_base_version_by_channel (t :: tags) channel =
      get_base_version_by_channel tags channel)
    (hcontrib : ∀ core : List Char, ordContribution core channel t.data = none) :
    generate_new_version (t :: tags) channel b = generate_new_version tags channel b := by
  by_cases hc : channel = "release"
  · subst hc
    rw [generate_eq_release, generate_eq_release]
    unfold bumpedOf
    rw [hbase]
  · rw [generate_eq_pre _ _ _ hc, generate_eq_pre _ _ _ hc]
    have hbump : bumpedOf (t :: tags) channel b = bumpedOf tags channel b := by
      unfold bumpedOf
      rw [hbase]
    have hcore : coreOf (t :: tags) channel b = coreOf tags channel b := by
      unfold coreOf
      rw [hbump]
    rw [hbump, hcore]
    have hlast : get_last_prerelease_number (t :: tags) (coreOf tags channel b) channel =
        get_last_prerelease_number tags (coreOf tags channel b) channel := by
      have hd := get_last_drop_none [] tags t (coreOf tags channel b) channel (hcontrib _)
      simpa using hd
    rw [hlast]

theorem mem_toList_of_eq_some {α : Type} {o : Option α} {v : α} (h : o = some v) :
    v ∈ o.toList := by
  rw [h]
  exact List.mem_singleton.mpr rfl

theorem eq_some_of_mem_toList {α : Type} {o : Option α} {v : α} (h : v ∈ o.toList) :
    o = some v := by
  cases o with
  | none => cases h
  | some w =>
    have hvw : v = w := List.mem_singleton.mp h
    rw [hvw]

theorem channelAccepts_rc_eq (v : VersionInfo) :
    channelAccepts "release-candidate" v = acceptsPre ['b', 'e', 't', 'a'] v := by
  unfold channelAccepts
  rw [if_neg (by decide), if_pos rfl]

theorem channelAccepts_release_eq (v : VersionInfo) :
    channelAccepts "release" v = acceptsPre ['r', 'c'] v := by
  unfold channelAccepts
  rw [if_neg (by decide), if_neg (by decide), if_pos rfl]

theorem channelAccepts_unknown {c : String} (h1 : c ≠ "beta") (h2 : c ≠ "release-candidate")
    (h3 : c ≠ "release") (v : VersionInfo) : channelAccepts c v = false := by
  unfold channelAccepts
  rw [if_neg h1, if_neg h2, if_neg h3]

theorem ne_of_not_contains {c s : String} (hc : channelChoices.contains c = false)
    (hs : channelChoices.contains s = true) : c ≠ s := by
  rintro rfl
  rw [hs] at hc
  cases hc

theorem base_lt_bumped (v : VersionInfo) (b : Bump) (w : VersionInfo)
    (h1 : w.major = (bumpVersion b v).major) (h2 : w.minor = (bumpVersion b v).minor)
    (h3 : w.patch = (bumpVersion b v).patch) :
    cmpVersion v w = .lt := by
  apply cmpVersion_lt_of_core_lt
  cases b <;> simp only [bumpVersion] at h1 h2 h3 <;> omega

/-- The base version the resolver chose is, in the catalog of v-tags that the
channel accepts, a maximum under semver precedence. -/
def isCatalogMaxFor (tags : List String) (pre : List Char) (r : VersionInfo) : Prop :=
  (∃ t ∈ tags, headIsV t.data = true ∧ parseVersionChars (t.data.drop 1) = some r ∧
    acceptsPre pre r = true) ∧
  (∀ t ∈ tags, headIsV t.data = true → ∀ v ∈ (parseVersionChars (t.data.drop 1)).toList,
    acceptsPre pre v = true → cmpVersion r v ≠ .lt)

theorem get_base_max_of_exists (tags : List String) (ch : String) (pre : List Char)
    (hacc : ∀ v, channelAccepts ch v = acceptsPre pre v)
    (h : ∃ t ∈ tags, headIsV t.data = true ∧
      ∃ v ∈ (parseVersionChars (t.data.drop 1)).toList, acceptsPre pre v = true) :
    isCatalogMaxFor tags pre (get_base_version_by_channel tags ch) := by
  obtain ⟨t, ht, hhead, v, hmem, ha⟩ := h
  have hv := eq_some_of_mem_toList hmem
  have htl : t.data ∈ sortTagsDesc ((tags.map String.data).filter headIsV) := by
    rw [mem_sortTagsDesc]
    exact List.mem_filter.mpr ⟨List.mem_map_of_mem _ ht, hhead⟩
  obtain ⟨r, hr⟩ := firstBase_isSome ⟨t.data, htl, v, hv, by rw [hacc]; exact ha⟩
  have hbase : get_base_version_by_channel tags ch = r := by
    unfold get_base_version_by_channel
    simp only [hr]
  rw [hbase]
  constructor
  · obtain ⟨t', ht', hp', ha'⟩ := firstBase_mem hr
    rw [mem_sortTagsDesc] at ht'
    have hf := List.mem_filter.mp ht'
    obtain ⟨s, hs, rfl⟩ := List.mem_map.mp hf.1
    refine ⟨s, hs, hf.2, hp', ?_⟩
    rw [← hacc]
    exact ha'
  · intro s hs hh v' hmem' ha'
    have hv' := eq_some_of_mem_toList hmem'
    refine firstBase_ge (pairwise_sortTagsDesc _) hr s.data ?_ v' hv' ?_
    · rw [mem_sortTagsDesc]
      exact List.mem_filter.mpr ⟨List.mem_map_of_mem _ hs, hh⟩
    · rw [hacc]
      exact ha'

/-! ## Claims -/

/-- C1 counterexample: for the tag list ["v0.1.1"], channel release, bump
patch, the engine resolves the sentinel base 0.1.0 and returns 0.1.1, yet the
catalog already holds version 0.1.1 of the same release line, which does not
compare strictly below the result: the monotonicity guarantee fails. -/
theorem C1_counterexample :
    generate_new_version ["v0.1.1"] "release" .patch = ⟨0, 1, 1, none, none⟩ ∧
    parseVersionChars (("v0.1.1" : String).data.drop 1) = some ⟨0, 1, 1, none, none⟩ ∧
    cmpVersion ⟨0, 1, 1, none, none⟩
      (generate_new_version ["v0.1.1"] "release" .patch) ≠ .lt :=
  ⟨by decide, by decide, by decide⟩

/-- C1 (amended): for every tag list, channel, and bump level, the returned
Version compares strictly greater (semver precedence) than the base version
the resolver selected; the original claim that it also exceeds every catalog
version of the same release line does not hold. -/
theorem C1_amended_result_gt_base (tags : List String) (channel : String) (b : Bump) :
    cmpVersion (get_base_version_by_channel tags channel)
      (generate_new_version tags channel b) = .lt := by
  by_cases hc : channel = "release"
  · subst hc
    rw [generate_eq_release]
    exact base_lt_bumped _ b _ rfl rfl rfl
  · rw [generate_eq_pre _ _ _ hc]
    exact base_lt_bumped _ b _ rfl rfl rfl

/-- C2 counterexample: for ["v1.0.0", "v1.1.0-rc.1"], channel release, bump
minor, the engine returns 1.2.0, not the claimed 1.1.0. -/
theorem C2_counterexample :
    generate_new_version ["v1.0.0", "v1.1.0-rc.1"] "release" .minor = ⟨1, 2, 0, none, none⟩ ∧
    generate_new_version ["v1.0.0", "v1.1.0-rc.1"] "release" .minor ≠ ⟨1, 1, 0, none, none⟩ :=
  ⟨by decide, by decide⟩

/-- C2 (amended): for ["v1.0.0", "v1.1.0-rc.1"], channel release, bump minor,
the engine anchors on v1.1.0-rc.1 as the base, but the numeric bump is applied
unconditionally even when continuing the open prerelease line, so the result
is 1.2.0, not 1.1.0. -/
theorem C2_amended :
    get_base_version_by_channel ["v1.0.0", "v1.1.0-rc.1"] "release" =
      ⟨1, 1, 0, some ['r', 'c', '.', '1'], none⟩ ∧
    generate_new_version ["v1.0.0", "v1.1.0-rc.1"] "release" .minor = ⟨1, 2, 0, none, none⟩ :=
  ⟨by decide, by decide⟩

/-- C3 counterexample: for the empty tag list, channel release, bump patch,
the engine returns 0.1.1 (the sentinel 0.1.0 with the patch bump applied),
not the claimed 0.1.0. -/
theorem C3_counterexample :
    generate_new_version [] "release" .patch = ⟨0, 1, 1, none, none⟩ ∧
    generate_new_version [] "release" .patch ≠ ⟨0, 1, 0, none, none⟩ :=
  ⟨by decide, by decide⟩

/-- C3 (amended): for every tag list whose v-prefixed names contain no valid
semantic version (in particular the empty list), the base resolver yields the
sentinel 0.1.0 regardless of channel, and the release/patch request returns
0.1.1 — the sentinel with the patch bump applied — not 0.1.0. -/
theorem C3_amended (tags : List String) (channel : String)
    (h : ∀ t ∈ tags, t.data.head? = some 'v' → parseVersionChars (t.data.drop 1) = none) :
    get_base_version_by_channel tags channel = sentinelVersion ∧
    generate_new_version tags "release" .patch = ⟨0, 1, 1, none, none⟩ := by
  have hbase : ∀ ch : String, get_base_version_by_channel tags ch = sentinelVersion := by
    intro ch
    apply get_base_sentinel_of_reject
    intro t ht hh v hv
    rw [h t ht (headIsV_iff.mp hh)] at hv
    cases hv
  refine ⟨hbase channel, ?_⟩
  rw [generate_eq_release]
  unfold bumpedOf
  rw [hbase "release"]
  rfl

theorem C3_witness :
    (∀ t ∈ (["not-a-version", "v0.9"] : List String), t.data.head? = some 'v' →
      parseVersionChars (t.data.drop 1) = none) ∧
    (get_base_version_by_channel ["not-a-version", "v0.9"] "beta" = sentinelVersion ∧
      generate_new_version ["not-a-version", "v0.9"] "release" .patch = ⟨0, 1, 1, none, none⟩) :=
  ⟨by decide, C3_amended _ "beta" (by decide)⟩

/-- C4 counterexample: for ["v1.0.0"] (one stable version, no prerelease
tags), the resolver for channel release-candidate — and for channel release —
returns the sentinel 0.1.0, not the latest stable 1.0.0 the claim requires. -/
theorem C4_counterexample :
    get_base_version_by_channel ["v1.0.0"] "release-candidate" = ⟨0, 1, 0, none, none⟩ ∧
    get_base_version_by_channel ["v1.0.0"] "release-candidate" ≠ ⟨1, 0, 0, none, none⟩ ∧
    get_base_version_by_channel ["v1.0.0"] "release" = ⟨0, 1, 0, none, none⟩ :=
  ⟨by decide, by decide, by decide⟩

/-- C4 (amended): when no v-tag parses to a version whose prerelease starts
with "beta" (resp. "rc"), the resolver for channel release-candidate (resp.
release) returns the sentinel 0.1.0, never the latest stable; and when such a
tag exists it is chosen with no restriction on its major.minor.patch triple
(e.g. a beta of 9.9.9 anchors a release-candidate request over stable 1.0.0). -/
theorem C4_amended (tags : List String)
    (hb : ∀ t ∈ tags, t.data.head? = some 'v' →
      ∀ v ∈ (parseVersionChars (t.data.drop 1)).toList, acceptsPre ['b', 'e', 't', 'a'] v = false)
    (hr : ∀ t ∈ tags, t.data.head? = some 'v' →
      ∀ v ∈ (parseVersionChars (t.data.drop 1)).toList, acceptsPre ['r', 'c'] v = false) :
    get_base_version_by_channel tags "release-candidate" = sentinelVersion ∧
    get_base_version_by_channel tags "release" = sentinelVersion ∧
    get_base_version_by_channel ["v1.0.0", "v9.9.9-beta.1"] "release-candidate" =
      ⟨9, 9, 9, some ['b', 'e', 't', 'a', '.', '1'], none⟩ := by
  refine ⟨?_, ?_, by decide⟩
  · apply get_base_sentinel_of_reject
    intro t ht hh v hv
    rw [channelAccepts_rc_eq]
    exact hb t ht (headIsV_iff.mp hh) v (mem_toList_of_eq_some hv)
  · apply get_base_sentinel_of_reject
    intro t ht hh v hv
    rw [channelAccepts_release_eq]
    exact hr t ht (headIsV_iff.mp hh) v (mem_toList_of_eq_some hv)

theorem C4_witness :
    (∀ t ∈ (["v1.0.0", "v2.3.4"] : List String), t.data.head? = some 'v' →
      ∀ v ∈ (parseVersionChars (t.data.drop 1)).toList,
        acceptsPre ['b', 'e', 't', 'a'] v = false) ∧
    (∀ t ∈ (["v1.0.0", "v2.3.4"] : List String), t.data.head? = some 'v' →
      ∀ v ∈ (parseVersionChars (t.data.drop 1)).toList, acceptsPre ['r', 'c'] v = false) ∧
    (get_base_version_by_channel ["v1.0.0", "v2.3.4"] "release-candidate" = sentinelVersion ∧
      get_base_version_by_channel ["v1.0.0", "v2.3.4"] "release" = sentinelVersion ∧
      get_base_version_by_channel ["v1.0.0", "v9.9.9-beta.1"] "release-candidate" =
        ⟨9, 9, 9, some ['b', 'e', 't', 'a', '.', '1'], none⟩) :=
  ⟨by decide, by decide, C4_amended _ (by decide) (by decide)⟩

/-- C5 counterexample: the tag "1.2.3" (no 'v' prefix) does not enter the
catalog — with it as the only tag the beta resolver yields the sentinel, not
1.2.3 — while "v1.2.3" does. -/
theorem C5_counterexample :
    get_base_version_by_channel ["1.2.3"] "beta" = ⟨0, 1, 0, none, none⟩ ∧
    get_base_version_by_channel ["1.2.3"] "beta" ≠ ⟨1, 2, 3, none, none⟩ ∧
    get_base_version_by_channel ["v1.2.3"] "beta" = ⟨1, 2, 3, none, none⟩ :=
  ⟨by decide, by decide, by decide⟩

/-- C5 (amended): only tags starting with 'v' are considered at all — a tag
without the prefix is discarded before parsing, not parsed whole — and a
v-prefixed tag whose remainder fails the grammar is dropped silently; in both
cases the engine's entire output is unchanged by the tag's presence. -/
theorem C5_amended :
    (∀ (t : String) (tags : List String) (channel : String) (b : Bump),
        t.data.head? ≠ some 'v' →
        generate_new_version (t :: tags) channel b = generate_new_version tags channel b) ∧
    (∀ (t : String) (tags : List String) (channel : String) (b : Bump),
        t.data.head? = some 'v' → parseVersionChars (t.data.drop 1) = none →
        generate_new_version (t :: tags) channel b = generate_new_version tags channel b) := by
  constructor
  · intro t tags channel b h
    apply generate_cong
    · apply get_base_cons_not_v
      cases hh : headIsV t.data
      · rfl
      · exact absurd (headIsV_iff.mp hh) h
    · intro core
      exact ordContribution_not_v h
  · intro t tags channel b hh hp
    apply generate_cong
    · exact get_base_cons_invalid _ _ _ (headIsV_iff.mpr hh) hp
    · intro core
      exact ordContribution_of_parse_none hp

theorem C5_witness :
    ((("1.2.3" : String).data.head? ≠ some 'v') ∧
      generate_new_version ["1.2.3"] "beta" .patch = generate_new_version [] "beta" .patch) ∧
    ((("v0.9" : String).data.head? = some 'v') ∧
      parseVersionChars (("v0.9" : String).data.drop 1) = none ∧
      generate_new_version ["v0.9", "v1.2.3"] "beta" .patch =
        generate_new_version ["v1.2.3"] "beta" .patch) :=
  ⟨⟨by decide, C5_amended.1 "1.2.3" [] "beta" .patch (by decide)⟩,
   ⟨by decide, by decide, C5_amended.2 "v0.9" ["v1.2.3"] "beta" .patch (by decide) (by decide)⟩⟩

/-- C6 counterexample: the engine, given the unrecognized channel "nightly",
does not fail: it silently resolves the sentinel base and produces the version
0.1.1-nightly.1, contradicting the claim that no version output is produced. -/
theorem C6_counterexample :
    generate_new_version [] "nightly" .patch =
      ⟨0, 1, 1, some ['n', 'i', 'g', 'h', 't', 'l', 'y', '.', '1'], none⟩ := by decide

/-- C6 (amended): an unrecognized channel is rejected only by the CLI argument
parser (argparse choices), outside the engine; the engine itself matches no
case of the resolver, silently returns the sentinel 0.1.0 as base, and treats
the channel as a prerelease channel whose label is the channel string itself. -/
theorem C6_amended (c : String) (tags : List String) (b : Bump)
    (hc : channelChoices.contains c = false) :
    argparseAcceptsChannel c = false ∧
    get_base_version_by_channel tags c = sentinelVersion ∧
    generate_new_version tags c b =
      { bumpVersion b sentinelVersion with
        prerelease := some (channelPrefixOf c ++ '.' ::
          intToChars (get_last_prerelease_number tags
            ((splitFirst '-' (strVersion (bumpVersion b sentinelVersion))).1) c + 1)) } := by
  have h1 := ne_of_not_contains hc (by decide : channelChoices.contains "beta" = true)
  have h2 := ne_of_not_contains hc
    (by decide : channelChoices.contains "release-candidate" = true)
  have h3 := ne_of_not_contains hc (by decide : channelChoices.contains "release" = true)
  have hbase : get_base_version_by_channel tags c = sentinelVersion :=
    get_base_sentinel_of_reject tags c
      (fun t ht hh v hv => channelAccepts_unknown h1 h2 h3 v)
  refine ⟨hc, hbase, ?_⟩
  rw [generate_eq_pre tags c b h3]
  unfold coreOf bumpedOf
  rw [hbase]

theorem C6_witness :
    channelChoices.contains "nightly" = false ∧
    (argparseAcceptsChannel "nightly" = false ∧
      get_base_version_by_channel ["v0.1.1-nightly.3"] "nightly" = sentinelVersion ∧
      generate_new_version ["v0.1.1-nightly.3"] "nightly" .patch =
        { bumpVersion .patch sentinelVersion with
          prerelease := some (channelPrefixOf "nightly" ++ '.' ::
            intToChars (get_last_prerelease_number ["v0.1.1-nightly.3"]
              ((splitFirst '-' (strVersion (bumpVersion .patch sentinelVersion))).1)
              "nightly" + 1)) }) :=
  ⟨by decide, C6_amended "nightly" ["v0.1.1-nightly.3"] .patch (by decide)⟩

/-- C7: ordinal freshness.  First part: if some tag of the list contributes
the ordinal N for the request's post-bump core on channel beta and every
contribution is at most N, the returned version carries prerelease
"beta.(N+1)".  Second part: if no tag contributes at all for that core and
label, the returned ordinal is 1. -/
theorem C7_ordinal_freshness :
    (∀ (tags : List String) (b : Bump) (N : Nat),
        (∃ t ∈ tags, ordContribution (coreOf tags "beta" b) "beta" t.data = some (N : Int)) →
        (∀ t ∈ tags,
          (ordContribution (coreOf tags "beta" b) "beta" t.data).getD 0 ≤ (N : Int)) →
        (generate_new_version tags "beta" b).prerelease =
          some (['b', 'e', 't', 'a'] ++ '.' :: intToChars ((N : Int) + 1))) ∧
    (∀ (tags : List String) (b : Bump),
        (∀ t ∈ tags, ordContribution (coreOf tags "beta" b) "beta" t.data = none) →
        (generate_new_version tags "beta" b).prerelease =
          some (['b', 'e', 't', 'a'] ++ '.' :: intToChars 1)) := by
  have hrel : ("beta" : String) ≠ "release" := by decide
  have hpre : channelPrefixOf "beta" = ['b', 'e', 't', 'a'] := by decide
  constructor
  · intro tags b N hex hle
    have hlast : get_last_prerelease_number tags (coreOf tags "beta" b) "beta" = (N : Int) := by
      apply get_last_eq_max _ _ _ _ (Int.natCast_nonneg N) hex
      intro t ht k hk
      have hh := hle t ht
      rw [hk] at hh
      simpa using hh
    rw [generate_eq_pre tags "beta" b hrel]
    show some (channelPrefixOf "beta" ++ '.' ::
      intToChars (get_last_prerelease_number tags (coreOf tags "beta" b) "beta" + 1)) = _
    rw [hlast, hpre]
  · intro tags b hnone
    have hlast : get_last_prerelease_number tags (coreOf tags "beta" b) "beta" = 0 :=
      get_last_eq_zero _ _ _ hnone
    rw [generate_eq_pre tags "beta" b hrel]
    show some (channelPrefixOf "beta" ++ '.' ::
      intToChars (get_last_prerelease_number tags (coreOf tags "beta" b) "beta" + 1)) = _
    rw [hlast, hpre]
    norm_num

theorem C7_witness :
    ((∃ t ∈ (["v1.0.0", "v1.0.1-beta.4"] : List String),
        ordContribution (coreOf ["v1.0.0", "v1.0.1-beta.4"] "beta" .patch) "beta" t.data =
          some ((4 : Nat) : Int)) ∧
      (∀ t ∈ (["v1.0.0", "v1.0.1-beta.4"] : List String),
        (ordContribution (coreOf ["v1.0.0", "v1.0.1-beta.4"] "beta" .patch) "beta"
          t.data).getD 0 ≤ ((4 : Nat) : Int)) ∧
      (generate_new_version ["v1.0.0", "v1.0.1-beta.4"] "beta" .patch).prerelease =
        some (['b', 'e', 't', 'a'] ++ '.' :: intToChars (((4 : Nat) : Int) + 1))) ∧
    ((∀ t ∈ (["v1.0.0"] : List String),
        ordContribution (coreOf ["v1.0.0"] "beta" .patch) "beta" t.data = none) ∧
      (generate_new_version ["v1.0.0"] "beta" .patch).prerelease =
        some (['b', 'e', 't', 'a'] ++ '.' :: intToChars 1)) :=
  ⟨⟨by decide, by decide, C7_ordinal_freshness.1 _ .patch 4 (by decide) (by decide)⟩,
   ⟨by decide, C7_ordinal_freshness.2 _ .patch (by decide)⟩⟩

/-- C8: a tag that contributes no ordinal (in particular one whose prerelease
ordinal fails to parse as an integer, like v1.0.0-beta.final) is excluded from
the ordinal-max computation only — removing it changes nothing — and when no
tag matches the "v{base}-{label}." pattern at all the query yields 0. -/
theorem C8_ordinal_error_handling :
    (∀ (tags1 tags2 : List String) (t : String) (base : List Char) (ch : String),
        ordContribution base ch t.data = none →
        get_last_prerelease_number (tags1 ++ t :: tags2) base ch =
          get_last_prerelease_number (tags1 ++ tags2) base ch) ∧
    (∀ (tags : List String) (base : List Char) (ch : String),
        (∀ t ∈ tags,
          startsWithChars ('v' :: base ++ '-' :: channelPrefixOf ch ++ ['.']) t.data = false) →
        get_last_prerelease_number tags base ch = 0) ∧
    ordContribution ['1', '.', '0', '.', '0'] "beta" (("v1.0.0-beta.final" : String).data) =
      none ∧
    get_last_prerelease_number ["v1.0.0-beta.final", "v1.0.0-beta.2"]
      ['1', '.', '0', '.', '0'] "beta" = 2 := by
  refine ⟨get_last_drop_none, ?_, by decide, by decide⟩
  intro tags base ch h
  exact get_last_eq_zero _ _ _ (fun t ht => ordContribution_of_prefix_false (h t ht))

theorem C8_witness :
    (ordContribution ['1', '.', '0', '.', '0'] "beta"
        (("v1.0.0-beta.final" : String).data) = none ∧
      get_last_prerelease_number ([] ++ "v1.0.0-beta.final" :: ["v1.0.0-beta.2"])
          ['1', '.', '0', '.', '0'] "beta" =
        get_last_prerelease_number ([] ++ ["v1.0.0-beta.2"]) ['1', '.', '0', '.', '0'] "beta") ∧
    ((∀ t ∈ (["v1.0.0"] : List String),
        startsWithChars ('v' :: ['1', '.', '0', '.', '0'] ++ '-' ::
          channelPrefixOf "beta" ++ ['.']) t.data = false) ∧
      get_last_prerelease_number ["v1.0.0"] ['1', '.', '0', '.', '0'] "beta" = 0) :=
  ⟨⟨by decide,
    C8_ordinal_error_handling.1 [] ["v1.0.0-beta.2"] "v1.0.0-beta.final"
      ['1', '.', '0', '.', '0'] "beta" (by decide)⟩,
   ⟨by decide,
    C8_ordinal_error_handling.2.1 ["v1.0.0"] ['1', '.', '0', '.', '0'] "beta" (by decide)⟩⟩

/-- C9: in base resolution, prerelease matching is by string prefix of the
whole prerelease field — channel release-candidate accepts any version whose
prerelease starts with "beta" (e.g. beta2.1, betaX), channel release any whose
prerelease starts with "rc" — and the resolver returns a highest-precedence
such version from the whole catalog, with no major.minor.patch restriction. -/
theorem C9_prefix_channel_matching (tags : List String) :
    ((∃ t ∈ tags, headIsV t.data = true ∧
        ∃ v ∈ (parseVersionChars (t.data.drop 1)).toList,
          acceptsPre ['b', 'e', 't', 'a'] v = true) →
      isCatalogMaxFor tags ['b', 'e', 't', 'a']
        (get_base_version_by_channel tags "release-candidate")) ∧
    ((∃ t ∈ tags, headIsV t.data = true ∧
        ∃ v ∈ (parseVersionChars (t.data.drop 1)).toList, acceptsPre ['r', 'c'] v = true) →
      isCatalogMaxFor tags ['r', 'c'] (get_base_version_by_channel tags "release")) :=
  ⟨fun h => get_base_max_of_exists tags _ _ channelAccepts_rc_eq h,
   fun h => get_base_max_of_exists tags _ _ channelAccepts_release_eq h⟩

theorem C9_witness :
    ((∃ t ∈ (["v1.0.0", "v2.0.0-beta2.1", "v1.5.0-betaX", "v3.0.0-rc2.1"] : List String),
        headIsV t.data = true ∧
        ∃ v ∈ (parseVersionChars (t.data.drop 1)).toList,
          acceptsPre ['b', 'e', 't', 'a'] v = true) ∧
      isCatalogMaxFor ["v1.0.0", "v2.0.0-beta2.1", "v1.5.0-betaX", "v3.0.0-rc2.1"]
        ['b', 'e', 't', 'a']
        (get_base_version_by_channel
          ["v1.0.0", "v2.0.0-beta2.1", "v1.5.0-betaX", "v3.0.0-rc2.1"]
          "release-candidate")) ∧
    ((∃ t ∈ (["v1.0.0", "v2.0.0-beta2.1", "v1.5.0-betaX", "v3.0.0-rc2.1"] : List String),
        headIsV t.data = true ∧
        ∃ v ∈ (parseVersionChars (t.data.drop 1)).toList, acceptsPre ['r', 'c'] v = true) ∧
      isCatalogMaxFor ["v1.0.0", "v2.0.0-beta2.1", "v1.5.0-betaX", "v3.0.0-rc2.1"]
        ['r', 'c']
        (get_base_version_by_channel
          ["v1.0.0", "v2.0.0-beta2.1", "v1.5.0-betaX", "v3.0.0-rc2.1"] "release")) :=
  ⟨⟨by decide, (C9_prefix_channel_matching _).1 (by decide)⟩,
   ⟨by decide, (C9_prefix_channel_matching _).2 (by decide)⟩⟩

/-- C10: the ordinal counter only considers tags whose full name starts with
"v" + base + "-" + label + "." (label "rc" for release-candidate, otherwise
the channel string); it reads the ordinal as the integer second dot-separated
component of the prerelease, so "v1.0.0-beta.7.extra" contributes 7 while
"v1.0.0-beta7" contributes nothing. -/
theorem C10_ordinal_counter_shape :
    (∀ (tags1 tags2 : List String) (t : String) (base : List Char) (ch : String),
        startsWithChars ('v' :: base ++ '-' :: channelPrefixOf ch ++ ['.']) t.data = false →
        get_last_prerelease_number (tags1 ++ t :: tags2) base ch =
          get_last_prerelease_number (tags1 ++ tags2) base ch) ∧
    channelPrefixOf "release-candidate" = ['r', 'c'] ∧
    channelPrefixOf "beta" = ("beta" : String).data ∧
    get_last_prerelease_number ["v1.0.0-beta.7.extra"] ['1', '.', '0', '.', '0'] "beta" = 7 ∧
    get_last_prerelease_number ["v1.0.0-beta7"] ['1', '.', '0', '.', '0'] "beta" = 0 := by
  refine ⟨?_, by decide, by decide, by decide, by decide⟩
  intro tags1 tags2 t base ch h
  exact get_last_drop_none tags1 tags2 t base ch (ordContribution_of_prefix_false h)

theorem C10_witness :
    (startsWithChars ('v' :: ['1', '.', '0', '.', '0'] ++ '-' ::
        channelPrefixOf "beta" ++ ['.']) (("v1.0.0-rc.9" : String).data) = false ∧
      get_last_prerelease_number (["v1.0.0-beta.2"] ++ "v1.0.0-rc.9" :: [])
          ['1', '.', '0', '.', '0'] "beta" =
        get_last_prerelease_number (["v1.0.0-beta.2"] ++ []) ['1', '.', '0', '.', '0'] "beta") :=
  ⟨by decide,
   C10_ordinal_counter_shape.1 ["v1.0.0-beta.2"] [] "v1.0.0-rc.9"
     ['1', '.', '0', '.', '0'] "beta" (by decide)⟩
